import Mathlib

/-!
Shallow embedding of the low-latency infrastructure layer (lock-free SPSC ring
buffer, memory pool, asynchronous logger, non-blocking socket wrappers, and the
kqueue reactor) of this repository, together with theorems settling the frozen
claims about it.

Machine integers of the source (size_t counters and indices) are modelled as
Nat; pointer returns are modelled as indices; calls that abort the process
through ASSERT/FATAL are modelled as Option-valued functions returning none.
-/

set_option autoImplicit false

namespace Sockets

/-! ### LFQueue (src/lf_queue.h)

State of `Common::LFQueue<T>`: the backing vector `store_` and the three
counters.  `getNextToWrite` returns a pointer used for in-place population, so
the producer step is modelled by `writeSlot` (the in-place store through that
pointer) followed by `updateWriteIndex`. -/

structure LFQueue (α : Type) where
  store_ : List α
  next_write_index_ : Nat
  next_read_index_ : Nat
  num_elements_ : Nat
  deriving Repr, DecidableEq

namespace LFQueue

variable {α : Type} [Inhabited α]

/-- Constructor `LFQueue(num_elems)`: pre-allocates `num_elems` value-initialized
elements; all counters start at zero. -/
def mkLFQueue (num_elems : Nat) : LFQueue α :=
  { store_ := List.replicate num_elems default
    next_write_index_ := 0
    next_read_index_ := 0
    num_elements_ := 0 }

/-- Models `size()`: returns `num_elements_`. -/
def size (q : LFQueue α) : Nat := q.num_elements_

/-- The producer's in-place store through the pointer returned by
`getNextToWrite()` (which points at `store_[next_write_index_]`). -/
def writeSlot (q : LFQueue α) (v : α) : LFQueue α :=
  { q with store_ := q.store_.set q.next_write_index_ v }

/-- Models `updateWriteIndex()`: advances `next_write_index_` modulo the store size and
increments `num_elements_`; there is no capacity check. -/
def updateWriteIndex (q : LFQueue α) : LFQueue α :=
  { q with
    next_write_index_ := (q.next_write_index_ + 1) % q.store_.length
    num_elements_ := q.num_elements_ + 1 }

/-- Models `getNextToRead()`: null if `size()` is zero, else a pointer to
`store_[next_read_index_]` (modelled by the value at that index). -/
def getNextToRead (q : LFQueue α) : Option α :=
  if q.size ≠ 0 then some (q.store_.getD q.next_read_index_ default) else none

/-- Models `updateReadIndex()`: advances `next_read_index_` modulo the store size and
decrements `num_elements_`; the ASSERT aborts the process (`none`) when called
with `num_elements_ = 0`. -/
def updateReadIndex (q : LFQueue α) : Option (LFQueue α) :=
  if q.num_elements_ = 0 then none
  else some
    { q with
      next_read_index_ := (q.next_read_index_ + 1) % q.store_.length
      num_elements_ := q.num_elements_ - 1 }

/-- One producer push: populate the write slot in place, then publish it. -/
def push (q : LFQueue α) (v : α) : LFQueue α :=
  (q.writeSlot v).updateWriteIndex

/-- One consumer drain step: consult `getNextToRead()`; when it is non-null,
consume the element with `updateReadIndex()` and emit it, otherwise leave the
queue untouched. -/
def drain (q : LFQueue α) : LFQueue α × Option α :=
  match q.getNextToRead with
  | none => (q, none)
  | some v =>
    match q.updateReadIndex with
    | some q2 => (q2, some v)
    | none => (q, none)

end LFQueue

/-- An operation of the ring-buffer client: a producer push of a value, or a
consumer drain attempt. -/
inductive QOp (α : Type) where
  | write (v : α)
  | read
  deriving Repr, DecidableEq

/-- Run a sequence of queue operations, collecting the values read in order. -/
def runOps {α : Type} [Inhabited α] (q : LFQueue α) : List (QOp α) → LFQueue α × List α
  | [] => (q, [])
  | QOp.write v :: rest => runOps (q.push v) rest
  | QOp.read :: rest =>
    match q.drain with
    | (q2, none) => runOps q2 rest
    | (q2, some v) =>
      let r := runOps q2 rest
      (r.1, v :: r.2)

/-- The values written by a sequence of operations, in order. -/
def writtenVals {α : Type} : List (QOp α) → List α
  | [] => []
  | QOp.write v :: rest => v :: writtenVals rest
  | QOp.read :: rest => writtenVals rest

/-- The number of producer pushes in a sequence of operations. -/
def writeCount {α : Type} (ops : List (QOp α)) : Nat := (writtenVals ops).length

/-- Abstract FIFO queue: the pending elements as a plain list, evolved by the
same operation sequence.  Reference model for the simulation proof. -/
def absRun {α : Type} : List α → List (QOp α) → List α × List α
  | pend, [] => (pend, [])
  | pend, QOp.write v :: rest => absRun (pend ++ [v]) rest
  | pend, QOp.read :: rest =>
    match pend with
    | [] => absRun [] rest
    | v :: pend2 =>
      let r := absRun pend2 rest
      (r.1, v :: r.2)

/-- Coupling invariant between a concrete `LFQueue` state and the abstract list
of pending (written but not yet read) elements. -/
structure QRel {α : Type} [Inhabited α] (N : Nat) (q : LFQueue α) (pend : List α) : Prop where
  store_len : q.store_.length = N
  npos : 0 < N
  read_lt : q.next_read_index_ < N
  write_eq : q.next_write_index_ = (q.next_read_index_ + pend.length) % N
  count_eq : q.num_elements_ = pend.length
  contents : ∀ j, j < pend.length →
    q.store_.getD ((q.next_read_index_ + j) % N) default = pend.getD j default

/-- One queue operation as a state transformer (a drain discards its output). -/
def applyOp {α : Type} [Inhabited α] (q : LFQueue α) : QOp α → LFQueue α
  | QOp.write v => q.push v
  | QOp.read => (q.drain).1

/-- The producer discipline stated in the spec (Section 4.2 sizing contract):
`updateWriteIndex` is only invoked when the queue holds fewer elements than its
capacity. -/
def disciplined {α : Type} [Inhabited α] (q : LFQueue α) : List (QOp α) → Bool
  | [] => true
  | QOp.write v :: rest =>
    decide (q.num_elements_ < q.store_.length) && disciplined (q.push v) rest
  | QOp.read :: rest => disciplined (applyOp q QOp.read) rest

/-! ### MemPool (src/unnamed/part_001)

`Common::MemPool<T>`: contiguous `ObjectBlock` storage plus the next-free
index.  Placement construction of `T(args...)` is modelled by storing the
constructed value; the `T*` returned by `allocate` is modelled by the slot
index; ASSERT aborts are modelled as `none`. -/

structure ObjectBlock (α : Type) where
  object_ : α
  is_free_ : Bool
  deriving Repr, DecidableEq

structure MemPool (α : Type) where
  store_ : List (ObjectBlock α)
  next_free_index_ : Nat
  deriving Repr, DecidableEq

namespace MemPool

/-- Constructor `MemPool(num_elems)`: `num_elems` value-initialized blocks, all
free, and `next_free_index_ = 0`.  (The layout ASSERT about the object being
the first member of its block is an address-layout check with no observable
effect in this model.) -/
def mkMemPool {α : Type} [Inhabited α] (num_elems : Nat) : MemPool α :=
  { store_ := List.replicate num_elems { object_ := default, is_free_ := true }
    next_free_index_ := 0 }

/-- Models `store_[i].is_free_` (reads out of range yield `false`; such reads are
undefined behaviour in the source and unreachable from the constructor). -/
def isFreeAt {α : Type} (store : List (ObjectBlock α)) (i : Nat) : Bool :=
  match store.get? i with
  | some b => b.is_free_
  | none => false

/-- The loop of `updateNextFreeIndex()`: advance the index circularly while the
current block is in use; wrapping all the way back to `initial` hits the
"Memory Pool out of space." ASSERT, which aborts (`none`).  `fuel` bounds the
recursion; `store.length` steps are enough to reach a free block or the abort,
so the fuelled recursion is exact for the calls `allocate` makes. -/
def updateNextFreeIndex {α : Type} (store : List (ObjectBlock α)) (initial : Nat) :
    Nat → Nat → Option Nat
  | fuel, nfi =>
    if isFreeAt store nfi then some nfi
    else
      match fuel with
      | 0 => none
      | fuel2 + 1 =>
        let nfi2 := if nfi + 1 = store.length then 0 else nfi + 1
        if nfi2 = initial then none
        else updateNextFreeIndex store initial fuel2 nfi2

/-- Models `allocate(args...)`: ASSERT that the block at `next_free_index_` is free
(abort otherwise), placement-construct the value there, mark the block used,
run `updateNextFreeIndex()` (which may abort), and return the pointer to the
constructed object (its slot index). -/
def allocate {α : Type} (p : MemPool α) (v : α) : Option (MemPool α × Nat) :=
  if isFreeAt p.store_ p.next_free_index_ then
    let store2 := p.store_.set p.next_free_index_ { object_ := v, is_free_ := false }
    match updateNextFreeIndex store2 p.next_free_index_ store2.length p.next_free_index_ with
    | none => none
    | some nfi2 => some ({ store_ := store2, next_free_index_ := nfi2 }, p.next_free_index_)
  else none

end MemPool

/-! ### McastSocket (src/unnamed/part_003 header, src/unnamed/part_000 body)

State of `Common::McastSocket`: the outbound/inbound byte buffers and their
high-water indices.  The file descriptor, logger and the registered receive
callback are I/O collaborators; the callback invocation is reported through the
`Bool` result of `sendAndRecv`.  The kernel results of `recv`/`send` enter the
model as parameters. -/

/-- Models `McastBufferSize = 64 * 1024 * 1024`. -/
def McastBufferSize : Nat := 64 * 1024 * 1024

structure McastSocket where
  outbound_data_ : List Char
  next_send_valid_index_ : Nat
  inbound_data_ : List Char
  next_rcv_valid_index_ : Nat
  deriving Repr, DecidableEq

namespace McastSocket

/-- Models `memcpy(buf.data() + pos, data, data.size())`: overwrite the bytes of `buf`
starting at `pos`. -/
def writeBytes (buf : List Char) (pos : Nat) (data : List Char) : List Char :=
  buf.take pos ++ data ++ buf.drop (pos + data.length)

/-- Models `send(data, len)`: copy the bytes past the outbound high-water mark,
advance the mark, then `ASSERT(next_send_valid_index_ < McastBufferSize, ...)`
(abort modelled as `none`). -/
def send (s : McastSocket) (data : List Char) : Option McastSocket :=
  if s.next_send_valid_index_ + data.length < McastBufferSize then
    some { s with
      outbound_data_ := writeBytes s.outbound_data_ s.next_send_valid_index_ data
      next_send_valid_index_ := s.next_send_valid_index_ + data.length }
  else none

/-- Models `sendAndRecv()`: one I/O tick.  `rcvd` is what the non-blocking `recv`
returned (empty models both `0` and `-1`, which the `n_rcv > 0` test treats
alike).  If bytes arrived the inbound high-water mark advances and the receive
callback fires (the `Bool` result).  If outbound bytes are pending, one
non-blocking send attempt is made (a kernel effect with no state recorded
here), and `next_send_valid_index_` is then reset to zero unconditionally —
outside the `if`, regardless of how many bytes the kernel accepted. -/
def sendAndRecv (s : McastSocket) (rcvd : List Char) : McastSocket × Bool :=
  let s2 :=
    if rcvd.length > 0 then
      { s with
        inbound_data_ := writeBytes s.inbound_data_ s.next_rcv_valid_index_ rcvd
        next_rcv_valid_index_ := s.next_rcv_valid_index_ + rcvd.length }
    else s
  ({ s2 with next_send_valid_index_ := 0 }, rcvd.length > 0)

end McastSocket

/-! ### createSocket (src/macros.h) and the reactor setup (src/tcp_server.cpp)

The socket-API calls these functions issue, in order, on the success path (the
first resolved address; every failing call aborts through ASSERT). -/

inductive NetAction where
  | getaddrinfoCall
  | socketCall
  | setNonBlockingCall
  | disableNagleCall
  | connectCall
  | setReuseAddrCall
  | bindCall
  | listenSysCall
  | setSOTimestampCall
  | kqueueCall
  | keventRegisterRead
  deriving Repr, DecidableEq

/-- Models `Common::SocketCfg`. -/
structure SocketCfg where
  ip_ : String
  iface_ : String
  port_ : Int
  is_udp_ : Bool
  is_listening_ : Bool
  needs_so_timestamp_ : Bool
  deriving Repr, DecidableEq

/-- The sequence of socket-API calls `createSocket(logger, cfg)` makes on its
success path, translated from macros.h lines 416-491: create the descriptor,
set it non-blocking, disable Nagle for stream sockets, `connect` for
non-listening sockets, `SO_REUSEADDR` then `listen` for listening sockets, a
second `listen` for TCP listening sockets, and optionally `SO_TIMESTAMP`.  The
listening branch constructs a `sockaddr_in` for binding but issues no `bind`
call. -/
def createSocketActions (cfg : SocketCfg) : List NetAction :=
  [NetAction.getaddrinfoCall, NetAction.socketCall, NetAction.setNonBlockingCall]
  ++ (if !cfg.is_udp_ then [NetAction.disableNagleCall] else [])
  ++ (if !cfg.is_listening_ then [NetAction.connectCall] else [])
  ++ (if cfg.is_listening_ then [NetAction.setReuseAddrCall] else [])
  ++ (if cfg.is_listening_ then [NetAction.listenSysCall] else [])
  ++ (if !cfg.is_udp_ && cfg.is_listening_ then [NetAction.listenSysCall] else [])
  ++ (if cfg.needs_so_timestamp_ then [NetAction.setSOTimestampCall] else [])

/-- Modelled from the spec: the body of `TCPSocket::connect(ip, iface, port,
is_listening)` is not under src/ (only its declaration in tcp_socket.h and its
caller in tcp_server.cpp are).  Per Section 4.4, setup forwards a stream-socket
configuration — the given ip/iface/port, not UDP, the given listening role — to
the socket-creation routine, i.e. `createSocket`.  The receive-timestamp toggle
is independent of the bind/listen/register ordering under scrutiny and is left
off. -/
def tcpSocketConnectActions (ip iface : String) (port : Int) (is_listening : Bool) :
    List NetAction :=
  createSocketActions
    { ip_ := ip, iface_ := iface, port_ := port, is_udp_ := false,
      is_listening_ := is_listening, needs_so_timestamp_ := false }

/-- Models `TCPServer::listen(iface, port)` (tcp_server.cpp lines 11-20): create the
kqueue, set up the listener via `listener_socket_.connect("", iface, port,
true)`, then register it for read readiness (`addToEpollList`, EVFILT_READ). -/
def tcpServerListenActions (iface : String) (port : Int) : List NetAction :=
  [NetAction.kqueueCall] ++ tcpSocketConnectActions ("") iface port true
  ++ [NetAction.keventRegisterRead]

/-! ### TCPServer::sendAndRecv (src/tcp_server.cpp lines 22-34)

One reactor tick over the membership lists.  Each receive-interest socket is
represented by an identifier paired with what its `sendAndRecv()` returns this
tick; the fold mirrors `recv |= socket->sendAndRecv()` while recording the
invocation order. -/

structure TickResult (σ : Type) where
  recvInvoked : List σ
  finishedCallbackCount : Nat
  sendInvoked : List σ
  deriving Repr, DecidableEq

/-- Models `TCPServer::sendAndRecv()`: fold `sendAndRecv` over `receive_sockets_`
accumulating `recv |= ...`, fire `recv_finished_callback_` once iff the flag is
set, then invoke `sendAndRecv` on every `send_sockets_` entry. -/
def tcpServerSendAndRecv {σ : Type} (receive_sockets_ : List (σ × Bool))
    (send_sockets_ : List σ) : TickResult σ :=
  let step := receive_sockets_.foldl
    (fun (acc : List σ × Bool) sv => (acc.1 ++ [sv.1], acc.2 || sv.2)) ([], false)
  { recvInvoked := step.1
    finishedCallbackCount := if step.2 then 1 else 0
    sendInvoked := send_sockets_ }

/-! ### Logger (src/unnamed/part_004)

`Common::Logger`: the enum of element kinds, the tagged-union log element, the
`pushValue` overloads, the rendering switch of `flushQueue`, and the two `log`
overloads.  The element stream produced by the push calls is modelled as the
list of elements appended to the queue (FIFO transport through the LFQueue is
the subject of C1); `FATAL` aborts are modelled as `none`. -/

inductive LogType where
  | CHAR
  | INTEGER
  | LONG_INTEGER
  | LONG_LONG_INTEGER
  | UNSIGNED_INTEGER
  | UNSIGNED_LONG_INTEGER
  | UNSIGNED_LONG_LONG_INTEGER
  | FLOAT
  | DOUBLE
  deriving Repr, DecidableEq

/-- The union `u_` inside `LogElement`, modelled by its last-written member.
Reading any other member is type punning (undefined behaviour in the source),
so the member readers below are Option-valued.  The `long`/`long long` and
unsigned counterparts carry the same mathematical integers; `float`/`double`
payloads are modelled as rationals (no claim depends on float arithmetic). -/
inductive UnionVal where
  | c (v : Char)
  | i (v : Int)
  | l (v : Int)
  | ll (v : Int)
  | u (v : Nat)
  | ul (v : Nat)
  | ull (v : Nat)
  | f (v : Rat)
  | d (v : Rat)
  deriving Repr, DecidableEq

structure LogElement where
  type_ : LogType
  u_ : UnionVal
  deriving Repr, DecidableEq

/-- The tag matching the member a union value was written through. -/
def unionTag : UnionVal → LogType
  | UnionVal.c _ => LogType.CHAR
  | UnionVal.i _ => LogType.INTEGER
  | UnionVal.l _ => LogType.LONG_INTEGER
  | UnionVal.ll _ => LogType.LONG_LONG_INTEGER
  | UnionVal.u _ => LogType.UNSIGNED_INTEGER
  | UnionVal.ul _ => LogType.UNSIGNED_LONG_INTEGER
  | UnionVal.ull _ => LogType.UNSIGNED_LONG_LONG_INTEGER
  | UnionVal.f _ => LogType.FLOAT
  | UnionVal.d _ => LogType.DOUBLE

def readC : UnionVal → Option Char
  | UnionVal.c v => some v
  | _ => none

def readI : UnionVal → Option Int
  | UnionVal.i v => some v
  | _ => none

def readL : UnionVal → Option Int
  | UnionVal.l v => some v
  | _ => none

def readLL : UnionVal → Option Int
  | UnionVal.ll v => some v
  | _ => none

def readU : UnionVal → Option Nat
  | UnionVal.u v => some v
  | _ => none

def readUL : UnionVal → Option Nat
  | UnionVal.ul v => some v
  | _ => none

def readULL : UnionVal → Option Nat
  | UnionVal.ull v => some v
  | _ => none

def readF : UnionVal → Option Rat
  | UnionVal.f v => some v
  | _ => none

def readD : UnionVal → Option Rat
  | UnionVal.d v => some v
  | _ => none

/-- The element built by `pushValue(const char value)`. -/
def pushValueChar (v : Char) : LogElement := ⟨LogType.CHAR, UnionVal.c v⟩

/-- The element built by `pushValue(const int value)`. -/
def pushValueInt (v : Int) : LogElement := ⟨LogType.INTEGER, UnionVal.i v⟩

/-- The element built by `pushValue(const long value)`. -/
def pushValueLong (v : Int) : LogElement := ⟨LogType.LONG_INTEGER, UnionVal.l v⟩

/-- The element built by `pushValue(const long long value)`. -/
def pushValueLongLong (v : Int) : LogElement := ⟨LogType.LONG_LONG_INTEGER, UnionVal.ll v⟩

/-- The element built by `pushValue(const unsigned value)`. -/
def pushValueUnsigned (v : Nat) : LogElement := ⟨LogType.UNSIGNED_INTEGER, UnionVal.u v⟩

/-- The element built by `pushValue(const unsigned long value)`. -/
def pushValueUnsignedLong (v : Nat) : LogElement :=
  ⟨LogType.UNSIGNED_LONG_INTEGER, UnionVal.ul v⟩

/-- The element built by `pushValue(const unsigned long long value)`. -/
def pushValueUnsignedLongLong (v : Nat) : LogElement :=
  ⟨LogType.UNSIGNED_LONG_LONG_INTEGER, UnionVal.ull v⟩

/-- The element built by `pushValue(const float value)`. -/
def pushValueFloat (v : Rat) : LogElement := ⟨LogType.FLOAT, UnionVal.f v⟩

/-- The element built by `pushValue(const double value)`. -/
def pushValueDouble (v : Rat) : LogElement := ⟨LogType.DOUBLE, UnionVal.d v⟩

/-- Models `pushValue(const char *value)`: push the characters one element at a time
until the terminating null (strings are modelled without embedded nulls). -/
def pushValueCString (sv : List Char) : List LogElement := sv.map pushValueChar

/-- Decimal text of the floating kinds: the `file_ << float` stream formatting
is abstracted by the rational payload's decimal representation; no claim
inspects this text. -/
def floatText (q : Rat) : List Char := (toString q).toList

/-- The `switch (next->type_)` of `flushQueue()`: read exactly the union member
selected by the tag and emit its textual form (`file_ << ...`); reading a
member other than the written one is type punning, hence the `Option`. -/
def flushElement (e : LogElement) : Option (List Char) :=
  match e.type_ with
  | LogType.CHAR => (readC e.u_).map (fun v => [v])
  | LogType.INTEGER => (readI e.u_).map (fun v => (toString v).toList)
  | LogType.LONG_INTEGER => (readL e.u_).map (fun v => (toString v).toList)
  | LogType.LONG_LONG_INTEGER => (readLL e.u_).map (fun v => (toString v).toList)
  | LogType.UNSIGNED_INTEGER => (readU e.u_).map (fun v => (toString v).toList)
  | LogType.UNSIGNED_LONG_INTEGER => (readUL e.u_).map (fun v => (toString v).toList)
  | LogType.UNSIGNED_LONG_LONG_INTEGER => (readULL e.u_).map (fun v => (toString v).toList)
  | LogType.FLOAT => (readF e.u_).map floatText
  | LogType.DOUBLE => (readD e.u_).map floatText

/-- Drain a list of elements through the `flushQueue` switch and concatenate
the text. -/
def flushAll (es : List LogElement) : Option (List Char) :=
  (es.mapM flushElement).map List.flatten

/-- One argument of the variadic `log`: the template parameter instantiations
the `pushValue` overload set accepts. -/
inductive LogArg where
  | aChar (v : Char)
  | aInt (v : Int)
  | aLong (v : Int)
  | aLongLong (v : Int)
  | aUnsigned (v : Nat)
  | aUnsignedLong (v : Nat)
  | aUnsignedLongLong (v : Nat)
  | aFloat (v : Rat)
  | aDouble (v : Rat)
  | aStr (sv : List Char)
  deriving Repr, DecidableEq

/-- Models `pushValue(value)` for one `log` argument: scalars become one element,
strings one element per character. -/
def pushArg : LogArg → List LogElement
  | LogArg.aChar v => [pushValueChar v]
  | LogArg.aInt v => [pushValueInt v]
  | LogArg.aLong v => [pushValueLong v]
  | LogArg.aLongLong v => [pushValueLongLong v]
  | LogArg.aUnsigned v => [pushValueUnsigned v]
  | LogArg.aUnsignedLong v => [pushValueUnsignedLong v]
  | LogArg.aUnsignedLongLong v => [pushValueUnsignedLongLong v]
  | LogArg.aFloat v => [pushValueFloat v]
  | LogArg.aDouble v => [pushValueDouble v]
  | LogArg.aStr sv => pushValueCString sv

/-- The argument's textual form, as `flushQueue` renders its element(s). -/
def argText : LogArg → List Char
  | LogArg.aChar v => [v]
  | LogArg.aInt v => (toString v).toList
  | LogArg.aLong v => (toString v).toList
  | LogArg.aLongLong v => (toString v).toList
  | LogArg.aUnsigned v => (toString v).toList
  | LogArg.aUnsignedLong v => (toString v).toList
  | LogArg.aUnsignedLongLong v => (toString v).toList
  | LogArg.aFloat v => floatText v
  | LogArg.aDouble v => floatText v
  | LogArg.aStr sv => sv

/-- The no-argument overload `log(const char *s)`: scan the rest of the format;
`%%` emits a literal `%`, any other `%` is a missing argument — `FATAL`
(`none`); ordinary characters are pushed. -/
def logNoArgs : List Char → Option (List LogElement)
  | [] => some []
  | ch :: rest =>
    if ch = '%' then
      match rest with
      | [] => none
      | r :: rest2 =>
        if r = '%' then (logNoArgs rest2).map (fun es => pushValueChar '%' :: es)
        else none
    else (logNoArgs rest).map (fun es => pushValueChar ch :: es)

/-- The variadic overload `log(const char *s, const T &value, A... args)`
together with its dispatch to the no-argument overload when the pack is empty:
scan the format; on `%%` push a literal `%`; on a substituting `%` push the
current argument and recurse on the remaining format and arguments; if the
format ends while arguments remain, `FATAL` ("extra arguments provided to
log()") — modelled as `none`. -/
def logFmt : List Char → List LogArg → Option (List LogElement)
  | sfmt, [] => logNoArgs sfmt
  | [], _ :: _ => none
  | ch :: rest, a :: as =>
    if ch = '%' then
      match rest with
      | [] =>
        (match as with
          | [] => some []
          | _ :: _ => none).map (fun es => pushArg a ++ es)
      | r :: rest2 =>
        if r = '%' then (logFmt rest2 (a :: as)).map (fun es => pushValueChar '%' :: es)
        else (logFmt (r :: rest2) as).map (fun es => pushArg a ++ es)
    else (logFmt rest (a :: as)).map (fun es => pushValueChar ch :: es)

/-- Modelled from the spec's wording (the refinement reference for C4, written
from the spec, not from the code): scan the format left to right; each `%` is
replaced, in order, by the next argument's textual form; `%%` is an escaped
literal `%`; if the format string is exhausted with unconsumed arguments, or a
`%` has no corresponding argument, the call aborts (`none`). -/
def specLogText : List Char → List LogArg → Option (List Char)
  | [], [] => some []
  | [], _ :: _ => none
  | ch :: rest, args =>
    if ch = '%' then
      match rest with
      | [] =>
        match args with
        | [] => none
        | a :: as =>
          (match as with
            | [] => some []
            | _ :: _ => none).map (fun t => argText a ++ t)
      | r :: rest2 =>
        if r = '%' then (specLogText rest2 args).map (fun t => '%' :: t)
        else
          match args with
          | [] => none
          | a :: as => (specLogText (r :: rest2) as).map (fun t => argText a ++ t)
    else (specLogText rest args).map (fun t => ch :: t)

/-- The number of substituting (non-escaped) `%` placeholders in a format
string, scanning left to right with `%%` consumed as an escape. -/
def substCount : List Char → Nat
  | [] => 0
  | ch :: rest =>
    if ch = '%' then
      match rest with
      | [] => 1
      | r :: rest2 =>
        if r = '%' then substCount rest2 else 1 + substCount (r :: rest2)
    else substCount rest

/-! ### Supporting lemmas -/

theorem getD_set_self {α : Type} :
    ∀ (l : List α) (i : Nat) (v d : α), i < l.length → (l.set i v).getD i d = v := by
  intro l
  induction l with
  | nil => intro i v d h; simp at h
  | cons a t ih =>
    intro i v d h
    cases i with
    | zero => rfl
    | succ n => exact ih n v d (Nat.lt_of_succ_lt_succ (by simpa using h))

theorem getD_set_ne {α : Type} :
    ∀ (l : List α) (i j : Nat) (v d : α), i ≠ j → (l.set i v).getD j d = l.getD j d := by
  intro l
  induction l with
  | nil => intro i j v d _; simp [List.set]
  | cons a t ih =>
    intro i j v d hne
    cases i with
    | zero =>
      cases j with
      | zero => exact absurd rfl hne
      | succ m => rfl
    | succ n =>
      cases j with
      | zero => rfl
      | succ m => exact ih n m v d (fun h => hne (by rw [h]))

theorem getD_append_last {α : Type} :
    ∀ (l : List α) (v d : α), (l ++ [v]).getD l.length d = v := by
  intro l
  induction l with
  | nil => intro v d; rfl
  | cons a t ih => intro v d; exact ih v d

theorem mod_add_cancel {N r x y : Nat} (hx : x < N) (hy : y < N)
    (h : (r + x) % N = (r + y) % N) : x = y := by
  have hxy : x ≡ y [MOD N] := Nat.ModEq.add_left_cancel' r h
  rwa [Nat.ModEq, Nat.mod_eq_of_lt hx, Nat.mod_eq_of_lt hy] at hxy

theorem qrel_init {α : Type} [Inhabited α] (N : Nat) (hN : 0 < N) :
    QRel N (LFQueue.mkLFQueue (α := α) N) [] := by
  refine ⟨by simp [LFQueue.mkLFQueue], hN, hN, by simp [LFQueue.mkLFQueue], rfl, ?_⟩
  intro j hj
  simp at hj

theorem qrel_push {α : Type} [Inhabited α] {N : Nat} {q : LFQueue α} {pend : List α}
    (hrel : QRel N q pend) (hroom : pend.length + 1 ≤ N) (v : α) :
    QRel N (q.push v) (pend ++ [v]) := by
  obtain ⟨hlen, hN, hr, hw, hc, hcont⟩ := hrel
  have hplt : pend.length < N := hroom
  have hlen2 : ((q.store_.set q.next_write_index_ v).length) = N := by
    simpa using hlen
  refine ⟨hlen2, hN, hr, ?_, ?_, ?_⟩
  · show (q.next_write_index_ + 1) % (q.store_.set q.next_write_index_ v).length =
      (q.next_read_index_ + (pend ++ [v]).length) % N
    rw [hlen2, hw, Nat.mod_add_mod]
    simp [Nat.add_assoc]
  · show q.num_elements_ + 1 = (pend ++ [v]).length
    simp [hc]
  · intro j hj
    have hj2 : j < pend.length + 1 := by simpa using hj
    rcases Nat.lt_succ_iff_lt_or_eq.mp hj2 with hlt | heq
    · show (q.store_.set q.next_write_index_ v).getD ((q.next_read_index_ + j) % N) default =
        (pend ++ [v]).getD j default
      rw [getD_set_ne _ _ _ _ _ ?_, List.getD_append _ _ _ _ hlt]
      · exact hcont j hlt
      · rw [hw]
        intro hcontra
        exact Nat.ne_of_lt hlt (mod_add_cancel hplt (Nat.lt_of_lt_of_le hlt hplt.le) hcontra).symm
    · subst heq
      show (q.store_.set q.next_write_index_ v).getD ((q.next_read_index_ + pend.length) % N) default =
        (pend ++ [v]).getD pend.length default
      rw [← hw, getD_set_self _ _ _ _ ?_, getD_append_last]
      rw [hlen, hw]
      exact Nat.mod_lt _ hN

theorem qrel_drain_nil {α : Type} [Inhabited α] {N : Nat} {q : LFQueue α}
    (hrel : QRel N q []) : q.drain = (q, none) := by
  have hc : q.num_elements_ = 0 := hrel.count_eq
  simp [LFQueue.drain, LFQueue.getNextToRead, LFQueue.size, hc]

theorem qrel_drain_cons {α : Type} [Inhabited α] {N : Nat} {q : LFQueue α}
    {v : α} {pend2 : List α} (hrel : QRel N q (v :: pend2)) :
    ∃ q2, q.drain = (q2, some v) ∧ QRel N q2 pend2 := by
  obtain ⟨hlen, hN, hr, hw, hc, hcont⟩ := hrel
  have hcpos : q.num_elements_ ≠ 0 := by simp [hc]
  have hhead : q.store_.getD q.next_read_index_ default = v := by
    have h0 := hcont 0 (by simp)
    simpa [Nat.mod_eq_of_lt hr] using h0
  refine ⟨{ q with next_read_index_ := (q.next_read_index_ + 1) % q.store_.length, num_elements_ := q.num_elements_ - 1 }, ?_, ?_⟩
  · simp [LFQueue.drain, LFQueue.getNextToRead, LFQueue.size, LFQueue.updateReadIndex, hcpos]
    simpa [List.getD] using hhead
  · refine ⟨hlen, hN, ?_, ?_, ?_, ?_⟩
    · show (q.next_read_index_ + 1) % q.store_.length < N
      rw [hlen]
      exact Nat.mod_lt _ hN
    · show q.next_write_index_ = ((q.next_read_index_ + 1) % q.store_.length + pend2.length) % N
      rw [hlen, Nat.mod_add_mod, hw]
      simp [Nat.add_assoc, Nat.add_comm 1 pend2.length]
    · show q.num_elements_ - 1 = pend2.length
      simp [hc]
    · intro j hj
      show q.store_.getD (((q.next_read_index_ + 1) % q.store_.length + j) % N) default =
        pend2.getD j default
      rw [hlen, Nat.mod_add_mod, Nat.add_assoc, Nat.add_comm 1 j]
      have := hcont (j + 1) (by simpa using Nat.succ_lt_succ hj)
      simpa using this

theorem runOps_sim {α : Type} [Inhabited α] (N : Nat) :
    ∀ (ops : List (QOp α)) (q : LFQueue α) (pend : List α),
      QRel N q pend → pend.length + writeCount ops ≤ N →
      (runOps q ops).2 = (absRun pend ops).2 ∧ QRel N (runOps q ops).1 (absRun pend ops).1 := by
  intro ops
  induction ops with
  | nil => intro q pend hrel _; exact ⟨rfl, hrel⟩
  | cons op rest ih =>
    intro q pend hrel hbudget
    have hwc : ∀ w : α, writeCount (QOp.write w :: rest) = writeCount rest + 1 := by
      intro w; simp [writeCount, writtenVals]
    cases op with
    | write v =>
      have h1 : pend.length + 1 ≤ N := by
        have := hwc v; omega
      have h2 : (pend ++ [v]).length + writeCount rest ≤ N := by
        have := hwc v; simp only [List.length_append, List.length_cons, List.length_nil]; omega
      simpa [runOps, absRun] using ih (q.push v) (pend ++ [v]) (qrel_push hrel h1 v) h2
    | read =>
      have hwr : writeCount (QOp.read :: rest) = writeCount rest := by
        simp [writeCount, writtenVals]
      cases pend with
      | nil =>
        have hdrain := qrel_drain_nil hrel
        have h2 : ([] : List α).length + writeCount rest ≤ N := by
          simpa [hwr] using hbudget
        simpa [runOps, absRun, hdrain] using ih q [] hrel h2
      | cons v pend2 =>
        obtain ⟨q2, hdrain, hrel2⟩ := qrel_drain_cons hrel
        have h2 : pend2.length + writeCount rest ≤ N := by
          rw [hwr] at hbudget
          simp only [List.length_cons] at hbudget
          omega
        have hih := ih q2 pend2 hrel2 h2
        simp only [runOps, absRun, hdrain]
        exact ⟨by rw [hih.1], hih.2⟩

theorem absRun_conserve {α : Type} :
    ∀ (ops : List (QOp α)) (pend : List α),
      (absRun pend ops).2 ++ (absRun pend ops).1 = pend ++ writtenVals ops := by
  intro ops
  induction ops with
  | nil => intro pend; simp [absRun, writtenVals]
  | cons op rest ih =>
    intro pend
    cases op with
    | write v =>
      simp only [absRun, writtenVals]
      rw [ih]
      simp
    | read =>
      cases pend with
      | nil =>
        simp only [absRun, writtenVals]
        exact ih []
      | cons v pend2 =>
        simp only [absRun, writtenVals]
        rw [List.cons_append, ih]
        rfl

theorem drain_fst {α : Type} [Inhabited α] (q : LFQueue α) :
    (q.drain).1.store_ = q.store_ ∧ (q.drain).1.num_elements_ ≤ q.num_elements_ := by
  by_cases hc : q.num_elements_ = 0
  · simp [LFQueue.drain, LFQueue.getNextToRead, LFQueue.size, hc]
  · simp [LFQueue.drain, LFQueue.getNextToRead, LFQueue.size, LFQueue.updateReadIndex, hc]

theorem push_store_length {α : Type} [Inhabited α] (q : LFQueue α) (v : α) :
    (q.push v).store_.length = q.store_.length ∧
    (q.push v).num_elements_ = q.num_elements_ + 1 := by
  simp [LFQueue.push, LFQueue.writeSlot, LFQueue.updateWriteIndex]

theorem disciplined_count_le {α : Type} [Inhabited α] :
    ∀ (ops : List (QOp α)) (q : LFQueue α),
      q.num_elements_ ≤ q.store_.length → disciplined q ops = true →
      (runOps q ops).1.num_elements_ ≤ (runOps q ops).1.store_.length ∧
      (runOps q ops).1.store_.length = q.store_.length := by
  intro ops
  induction ops with
  | nil => intro q h _; exact ⟨h, rfl⟩
  | cons op rest ih =>
    intro q h hd
    cases op with
    | write v =>
      simp only [disciplined, Bool.and_eq_true, decide_eq_true_eq] at hd
      obtain ⟨hlt, hd2⟩ := hd
      have hpush := push_store_length q v
      have h2 : (q.push v).num_elements_ ≤ (q.push v).store_.length := by
        rw [hpush.1, hpush.2]
        omega
      have hrec := ih (q.push v) h2 hd2
      simp only [runOps]
      exact ⟨hrec.1, by rw [hrec.2, hpush.1]⟩
    | read =>
      simp only [disciplined, applyOp] at hd
      have hdr := drain_fst q
      have h2 : (q.drain).1.num_elements_ ≤ (q.drain).1.store_.length := by
        rw [hdr.1]
        exact le_trans hdr.2 h
      have hrec := ih (q.drain).1 h2 hd
      cases hdq : q.drain with
      | mk q2 out =>
        have hfst : (q.drain).1 = q2 := by rw [hdq]
        have hstore : q2.store_ = q.store_ := by rw [← hfst]; exact hdr.1
        rw [hfst] at hrec
        cases out with
        | none =>
          simp only [runOps, hdq]
          exact ⟨hrec.1, by rw [hrec.2, hstore]⟩
        | some v =>
          simp only [runOps, hdq]
          exact ⟨hrec.1, by rw [hrec.2, hstore]⟩

/-! ### Claim theorems: ring buffer -/

/-- C1: for every producer sequence of length k ≤ capacity written into the ring
buffer (via getNextToWrite/updateWriteIndex), interleaved arbitrarily with
consumer drains (via getNextToRead/updateReadIndex), the sequence of elements
read equals the sequence of elements written, in order (strict FIFO): at every
point the values read are exactly the first values written, and once the queue
is drained empty the two sequences coincide. -/
theorem lfqueue_strict_fifo {α : Type} [Inhabited α] (N : Nat) (ops : List (QOp α))
    (hN : 0 < N) (hk : writeCount ops ≤ N) :
    (runOps (LFQueue.mkLFQueue N) ops).2 =
      (writtenVals ops).take (runOps (LFQueue.mkLFQueue N) ops).2.length ∧
    ((runOps (LFQueue.mkLFQueue N) ops).1.num_elements_ = 0 →
      (runOps (LFQueue.mkLFQueue N) ops).2 = writtenVals ops) := by
  have hsim := runOps_sim N ops (LFQueue.mkLFQueue N) [] (qrel_init N hN) (by simpa using hk)
  have hcons : (absRun [] ops).2 ++ (absRun [] ops).1 = writtenVals ops := by
    simpa using absRun_conserve ops []
  constructor
  · rw [hsim.1, ← hcons, List.take_left]
  · intro hzero
    have hpendlen : (absRun [] ops).1.length = 0 := by
      have hcnt := hsim.2.count_eq
      omega
    have hpend : (absRun [] ops).1 = [] := List.length_eq_zero.mp hpendlen
    rw [hsim.1, ← hcons, hpend, List.append_nil]

/-- Witness for C1 at a concrete interleaving: two pushes and two drains on a
capacity-2 queue. -/
theorem lfqueue_strict_fifo_witness :
    0 < 2 ∧ writeCount [QOp.write (5 : Nat), QOp.read, QOp.write 7, QOp.read] ≤ 2 ∧
    ((runOps (LFQueue.mkLFQueue 2) [QOp.write (5 : Nat), QOp.read, QOp.write 7, QOp.read]).2 =
      (writtenVals [QOp.write (5 : Nat), QOp.read, QOp.write 7, QOp.read]).take
        (runOps (LFQueue.mkLFQueue 2) [QOp.write (5 : Nat), QOp.read, QOp.write 7, QOp.read]).2.length ∧
    ((runOps (LFQueue.mkLFQueue 2) [QOp.write (5 : Nat), QOp.read, QOp.write 7, QOp.read]).1.num_elements_ = 0 →
      (runOps (LFQueue.mkLFQueue 2) [QOp.write (5 : Nat), QOp.read, QOp.write 7, QOp.read]).2 =
        writtenVals [QOp.write (5 : Nat), QOp.read, QOp.write 7, QOp.read])) :=
  ⟨by decide, by decide, lfqueue_strict_fifo 2 _ (by decide) (by decide)⟩

/-- C9 counterexample: two consecutive producer pushes on a capacity-1 queue
drive `num_elements_` to 2 > 1 — `updateWriteIndex` has no capacity check, so
the bound count ≤ N is not preserved by arbitrary operation sequences. -/
theorem lfqueue_count_bound_counterexample :
    (runOps (LFQueue.mkLFQueue (α := Nat) 1) [QOp.write 0, QOp.write 0]).1.num_elements_ = 2 ∧
    (LFQueue.mkLFQueue (α := Nat) 1).store_.length = 1 ∧
    ¬((runOps (LFQueue.mkLFQueue (α := Nat) 1) [QOp.write 0, QOp.write 0]).1.num_elements_ ≤ 1) := by
  decide

/-- C9 amended: under the producer discipline the spec's Section 4.2 assigns to
the caller (never invoking `updateWriteIndex` on a full queue), every state
reachable by any sequence of the four queue operations satisfies
`num_elements_ ≤ N`; the lower bound holds since the count is a natural number
and `updateReadIndex` aborts instead of wrapping below zero. -/
theorem lfqueue_count_bound_amended {α : Type} [Inhabited α] (N : Nat) (ops : List (QOp α))
    (hdisc : disciplined (LFQueue.mkLFQueue (α := α) N) ops = true) :
    (runOps (LFQueue.mkLFQueue (α := α) N) ops).1.num_elements_ ≤ N := by
  have h := disciplined_count_le ops (LFQueue.mkLFQueue N) (by simp [LFQueue.mkLFQueue]) hdisc
  have hlen : (runOps (LFQueue.mkLFQueue (α := α) N) ops).1.store_.length = N := by
    simpa [LFQueue.mkLFQueue] using h.2
  exact le_trans h.1 (Nat.le_of_eq hlen)

/-- Witness for the amended C9 at a concrete disciplined interleaving on a
capacity-2 queue. -/
theorem lfqueue_count_bound_amended_witness :
    disciplined (LFQueue.mkLFQueue (α := Nat) 2)
      [QOp.write 1, QOp.write 2, QOp.read, QOp.write 3] = true ∧
    (runOps (LFQueue.mkLFQueue (α := Nat) 2)
      [QOp.write 1, QOp.write 2, QOp.read, QOp.write 3]).1.num_elements_ ≤ 2 :=
  ⟨by decide, lfqueue_count_bound_amended 2 _ (by decide)⟩

/-! ### Memory-pool lemmas -/

theorem get?_set_self {α : Type} :
    ∀ (l : List α) (i : Nat) (v : α), i < l.length → (l.set i v).get? i = some v := by
  intro l
  induction l with
  | nil => intro i v h; simp at h
  | cons a t ih =>
    intro i v h
    cases i with
    | zero => rfl
    | succ n => exact ih n v (Nat.lt_of_succ_lt_succ (by simpa using h))

theorem get?_set_ne2 {α : Type} :
    ∀ (l : List α) (i j : Nat) (v : α), i ≠ j → (l.set i v).get? j = l.get? j := by
  intro l
  induction l with
  | nil => intro i j v _; simp [List.set]
  | cons a t ih =>
    intro i j v hne
    cases i with
    | zero =>
      cases j with
      | zero => exact absurd rfl hne
      | succ m => rfl
    | succ n =>
      cases j with
      | zero => rfl
      | succ m => exact ih n m v (fun h => hne (by rw [h]))

theorem isFreeAt_set_self {α : Type} (l : List (ObjectBlock α)) (i : Nat) (b : ObjectBlock α)
    (h : i < l.length) : MemPool.isFreeAt (l.set i b) i = b.is_free_ := by
  unfold MemPool.isFreeAt
  rw [get?_set_self l i b h]

theorem isFreeAt_set_ne {α : Type} (l : List (ObjectBlock α)) (i j : Nat) (b : ObjectBlock α)
    (h : i ≠ j) : MemPool.isFreeAt (l.set i b) j = MemPool.isFreeAt l j := by
  unfold MemPool.isFreeAt
  rw [get?_set_ne2 l i j b h]

/-- If a free block lies `k` circular steps ahead of the scan position and no
position within the first `k` steps equals `initial`, the scan succeeds. -/
theorem updateNextFreeIndex_isSome {α : Type} (store : List (ObjectBlock α)) (initial : Nat) :
    ∀ (k nfi fuel : Nat), nfi < store.length → k ≤ fuel →
      MemPool.isFreeAt store ((nfi + k) % store.length) = true →
      (∀ t, 1 ≤ t → t ≤ k → (nfi + t) % store.length ≠ initial) →
      (MemPool.updateNextFreeIndex store initial fuel nfi).isSome := by
  intro k
  induction k with
  | zero =>
    intro nfi fuel hlt _ hfree _
    rw [Nat.add_zero, Nat.mod_eq_of_lt hlt] at hfree
    unfold MemPool.updateNextFreeIndex
    simp [hfree]
  | succ k ih =>
    intro nfi fuel hlt hfuel hfree havoid
    have hlenpos : 0 < store.length := Nat.lt_of_le_of_lt (Nat.zero_le _) hlt
    by_cases hcur : MemPool.isFreeAt store nfi = true
    · unfold MemPool.updateNextFreeIndex
      simp [hcur]
    · cases fuel with
      | zero => omega
      | succ fuel2 =>
        have hmod : (if nfi + 1 = store.length then 0 else nfi + 1) = (nfi + 1) % store.length := by
          by_cases he : nfi + 1 = store.length
          · simp [he]
          · have : nfi + 1 < store.length := by omega
            simp [he, Nat.mod_eq_of_lt this]
        have hne2 : (nfi + 1) % store.length ≠ initial := havoid 1 (by omega) (by omega)
        have hrec := ih ((nfi + 1) % store.length) fuel2 (Nat.mod_lt _ hlenpos)
          (by omega)
          (by rw [Nat.mod_add_mod]; simpa [Nat.add_assoc, Nat.add_comm 1 k] using hfree)
          (by
            intro t ht1 htk
            rw [Nat.mod_add_mod, Nat.add_assoc]
            have := havoid (1 + t) (by omega) (by omega)
            simpa using this)
        unfold MemPool.updateNextFreeIndex
        simp only [hcur, Bool.false_eq_true, if_false]
        rw [hmod]
        simp [hne2, hrec]

/-- If no block other than `initial` is free (and `initial` itself is in use),
the scan wraps around and aborts. -/
theorem updateNextFreeIndex_none {α : Type} (store : List (ObjectBlock α)) (initial : Nat)
    (hall : ∀ j, j < store.length → j ≠ initial → MemPool.isFreeAt store j = false)
    (hinit : MemPool.isFreeAt store initial = false) :
    ∀ (fuel nfi : Nat), nfi < store.length →
      MemPool.updateNextFreeIndex store initial fuel nfi = none := by
  intro fuel
  induction fuel with
  | zero =>
    intro nfi hlt
    have hcur : MemPool.isFreeAt store nfi = false := by
      by_cases he : nfi = initial
      · rw [he]; exact hinit
      · exact hall nfi hlt he
    unfold MemPool.updateNextFreeIndex
    simp [hcur]
  | succ fuel2 ih =>
    intro nfi hlt
    have hlenpos : 0 < store.length := Nat.lt_of_le_of_lt (Nat.zero_le _) hlt
    have hcur : MemPool.isFreeAt store nfi = false := by
      by_cases he : nfi = initial
      · rw [he]; exact hinit
      · exact hall nfi hlt he
    have hlt2 : (if nfi + 1 = store.length then 0 else nfi + 1) < store.length := by
      by_cases he : nfi + 1 = store.length
      · simpa [he] using hlenpos
      · simp only [he, if_false]; omega
    unfold MemPool.updateNextFreeIndex
    simp only [hcur, Bool.false_eq_true, if_false]
    by_cases he2 : (if nfi + 1 = store.length then 0 else nfi + 1) = initial
    · simp [he2]
    · simp only [he2, if_false]
      exact ih _ hlt2

/-! ### Claim theorems: memory pool -/

/-- C3 counterexample: in a fresh pool of capacity 1 the single slot is free,
yet `allocate` aborts — after constructing the value, `updateNextFreeIndex`
wraps to its starting index and hits the "Memory Pool out of space." ASSERT.
So an allocate made in a state with a free slot does abort the process. -/
theorem mempool_allocate_counterexample :
    MemPool.isFreeAt (MemPool.mkMemPool (α := Nat) 1).store_
      (MemPool.mkMemPool (α := Nat) 1).next_free_index_ = true ∧
    MemPool.allocate (MemPool.mkMemPool (α := Nat) 1) 7 = none := by
  decide

/-- C3 amended: an `allocate` whose target slot is free in-place-constructs the
value, marks the slot used, and returns a handle to it exactly when at least
one other slot is also free; when the target is the last free slot the call
aborts inside `updateNextFreeIndex` (and when no slot is free the entry ASSERT
aborts), so an abort can already occur on the call that consumes the last free
slot, not only in states with no free slot. -/
theorem mempool_allocate_amended {α : Type} (p : MemPool α) (v : α)
    (hlt : p.next_free_index_ < p.store_.length)
    (hfree : MemPool.isFreeAt p.store_ p.next_free_index_ = true) :
    ((∃ j, j < p.store_.length ∧ j ≠ p.next_free_index_ ∧
        MemPool.isFreeAt p.store_ j = true) →
      ∃ p2, MemPool.allocate p v = some (p2, p.next_free_index_) ∧
        p2.store_.get? p.next_free_index_ = some { object_ := v, is_free_ := false }) ∧
    ((∀ j, j < p.store_.length → j ≠ p.next_free_index_ →
        MemPool.isFreeAt p.store_ j = false) →
      MemPool.allocate p v = none) := by
  have hlenpos : 0 < p.store_.length := Nat.lt_of_le_of_lt (Nat.zero_le _) hlt
  set store2 := p.store_.set p.next_free_index_ { object_ := v, is_free_ := false } with hstore2
  have hlen2 : store2.length = p.store_.length := by simp [hstore2]
  constructor
  · rintro ⟨j, hj, hjne, hjfree⟩
    have hjfree2 : MemPool.isFreeAt store2 j = true := by
      rw [hstore2, isFreeAt_set_ne _ _ _ _ (fun h => hjne h.symm)]
      exact hjfree
    have hk : ∃ k, 1 ≤ k ∧ k ≤ p.store_.length - 1 ∧
        (p.next_free_index_ + k) % p.store_.length = j := by
      by_cases hord : p.next_free_index_ < j
      · refine ⟨j - p.next_free_index_, by omega, by omega, ?_⟩
        rw [Nat.add_sub_cancel' (le_of_lt hord)]
        exact Nat.mod_eq_of_lt hj
      · have hord2 : j < p.next_free_index_ := by omega
        refine ⟨j + p.store_.length - p.next_free_index_, by omega, by omega, ?_⟩
        have hx : p.next_free_index_ + (j + p.store_.length - p.next_free_index_) =
            j + p.store_.length := by omega
        rw [hx, Nat.add_mod_right]
        exact Nat.mod_eq_of_lt hj
    obtain ⟨k, hk1, hk2, hkj⟩ := hk
    have hscan : (MemPool.updateNextFreeIndex store2 p.next_free_index_ store2.length
        p.next_free_index_).isSome := by
      apply updateNextFreeIndex_isSome store2 p.next_free_index_ k p.next_free_index_
        store2.length (by rw [hlen2]; exact hlt) (by omega)
      · rw [hlen2, hkj]
        exact hjfree2
      · intro t ht1 htk heq
        rw [hlen2] at heq
        have htlt : t < p.store_.length := by omega
        have heq2 : (p.next_free_index_ + t) % p.store_.length =
            (p.next_free_index_ + 0) % p.store_.length := by
          rw [Nat.add_zero, Nat.mod_eq_of_lt hlt]
          exact heq
        have hteq : t = 0 := mod_add_cancel htlt hlenpos heq2
        omega
    rw [Option.isSome_iff_exists] at hscan
    obtain ⟨nfi2, hnfi2⟩ := hscan
    refine ⟨{ store_ := store2, next_free_index_ := nfi2 }, ?_, ?_⟩
    · unfold MemPool.allocate
      simp only [hfree, if_true, ← hstore2, hnfi2]
    · rw [hstore2]
      exact get?_set_self _ _ _ hlt
  · intro hall
    have hinit2 : MemPool.isFreeAt store2 p.next_free_index_ = false := by
      rw [hstore2, isFreeAt_set_self _ _ _ hlt]
    have hall2 : ∀ j, j < store2.length → j ≠ p.next_free_index_ →
        MemPool.isFreeAt store2 j = false := by
      intro j hj hjne
      rw [hstore2, isFreeAt_set_ne _ _ _ _ (fun h => hjne h.symm)]
      exact hall j (by rwa [hlen2] at hj) hjne
    have hscan := updateNextFreeIndex_none store2 p.next_free_index_ hall2 hinit2
      store2.length p.next_free_index_ (by rw [hlen2]; exact hlt)
    unfold MemPool.allocate
    simp only [hfree, if_true, ← hstore2, hscan]

/-- Witness for the amended C3: allocating in a fresh capacity-2 pool (both
slots free) succeeds; the second conjunct is vacuously instantiable. -/
theorem mempool_allocate_amended_witness :
    (MemPool.mkMemPool (α := Nat) 2).next_free_index_ <
      (MemPool.mkMemPool (α := Nat) 2).store_.length ∧
    MemPool.isFreeAt (MemPool.mkMemPool (α := Nat) 2).store_
      (MemPool.mkMemPool (α := Nat) 2).next_free_index_ = true ∧
    (((∃ j, j < (MemPool.mkMemPool (α := Nat) 2).store_.length ∧
        j ≠ (MemPool.mkMemPool (α := Nat) 2).next_free_index_ ∧
        MemPool.isFreeAt (MemPool.mkMemPool (α := Nat) 2).store_ j = true) →
      ∃ p2, MemPool.allocate (MemPool.mkMemPool (α := Nat) 2) 5 =
          some (p2, (MemPool.mkMemPool (α := Nat) 2).next_free_index_) ∧
        p2.store_.get? (MemPool.mkMemPool (α := Nat) 2).next_free_index_ =
          some { object_ := 5, is_free_ := false }) ∧
    ((∀ j, j < (MemPool.mkMemPool (α := Nat) 2).store_.length →
        j ≠ (MemPool.mkMemPool (α := Nat) 2).next_free_index_ →
        MemPool.isFreeAt (MemPool.mkMemPool (α := Nat) 2).store_ j = false) →
      MemPool.allocate (MemPool.mkMemPool (α := Nat) 2) 5 = none)) :=
  ⟨by decide, by decide, mempool_allocate_amended (MemPool.mkMemPool 2) 5 (by decide) (by decide)⟩

/-! ### Socket-buffer lemmas -/

theorem writeBytes_take (buf data : List Char) (pos : Nat) (h : pos ≤ buf.length) :
    (McastSocket.writeBytes buf pos data).take pos = buf.take pos := by
  unfold McastSocket.writeBytes
  rw [List.append_assoc, List.take_append_of_le_length ?hle]
  case hle => rw [List.length_take]; omega
  rw [List.take_take]
  simp

theorem writeBytes_drop_take (buf data : List Char) (pos : Nat) (h : pos ≤ buf.length) :
    ((McastSocket.writeBytes buf pos data).drop pos).take data.length = data := by
  unfold McastSocket.writeBytes
  rw [List.append_assoc]
  have hlen : (buf.take pos).length = pos := by rw [List.length_take]; omega
  rw [List.drop_left' hlen, List.take_left]

theorem writeBytes_length (buf data : List Char) (pos : Nat)
    (h : pos + data.length ≤ buf.length) :
    (McastSocket.writeBytes buf pos data).length = buf.length := by
  unfold McastSocket.writeBytes
  simp only [List.length_append, List.length_take, List.length_drop]
  omega

/-! ### Claim theorems: multicast socket -/

/-- C7 counterexample: a `send` that fills the outbound buffer to exactly
`McastBufferSize` bytes does not exceed the capacity, yet the call aborts —
the ASSERT requires the new high-water mark to stay strictly below
`McastBufferSize`. -/
theorem mcast_send_exact_fill_aborts :
    McastSocket.send
      { outbound_data_ := [], next_send_valid_index_ := McastBufferSize - 2,
        inbound_data_ := [], next_rcv_valid_index_ := 0 } ['x', 'y'] = none ∧
    ¬(McastBufferSize - 2 + (['x', 'y'] : List Char).length > McastBufferSize) := by
  constructor
  · decide
  · decide

/-- C7 amended: `send(data, length)` appends the bytes at the current outbound
high-water mark and advances the mark by `length`; the call aborts iff the new
mark would reach or exceed `McastBufferSize` (boundary included: filling the
buffer exactly also aborts; only strictly smaller totals survive). -/
theorem mcast_send_amended (s : McastSocket) (data : List Char)
    (hbuf : s.next_send_valid_index_ + data.length ≤ s.outbound_data_.length) :
    (McastSocket.send s data = none ↔
      McastBufferSize ≤ s.next_send_valid_index_ + data.length) ∧
    (∀ s2, McastSocket.send s data = some s2 →
      s2.next_send_valid_index_ = s.next_send_valid_index_ + data.length ∧
      s2.outbound_data_.take s.next_send_valid_index_ =
        s.outbound_data_.take s.next_send_valid_index_ ∧
      (s2.outbound_data_.drop s.next_send_valid_index_).take data.length = data ∧
      s2.outbound_data_.length = s.outbound_data_.length) := by
  by_cases hc : s.next_send_valid_index_ + data.length < McastBufferSize
  · have hsend : McastSocket.send s data = some
        { s with
          outbound_data_ :=
            McastSocket.writeBytes s.outbound_data_ s.next_send_valid_index_ data
          next_send_valid_index_ := s.next_send_valid_index_ + data.length } := by
      unfold McastSocket.send
      rw [if_pos hc]
    constructor
    · rw [hsend]
      constructor
      · intro h
        exact absurd h (by simp)
      · intro h
        omega
    · intro s2 hs2
      rw [hsend] at hs2
      have hval := (Option.some.inj hs2).symm
      subst hval
      refine ⟨rfl, ?_, ?_, ?_⟩
      · exact writeBytes_take s.outbound_data_ data s.next_send_valid_index_ (by omega)
      · exact writeBytes_drop_take s.outbound_data_ data s.next_send_valid_index_ (by omega)
      · exact writeBytes_length s.outbound_data_ data s.next_send_valid_index_ hbuf
  · have hsend : McastSocket.send s data = none := by
      unfold McastSocket.send
      rw [if_neg hc]
    constructor
    · rw [hsend]
      constructor
      · intro _
        omega
      · intro _
        rfl
    · intro s2 hs2
      rw [hsend] at hs2
      exact Option.noConfusion hs2

/-- Witness for the amended C7: appending two bytes at mark 1 of a four-byte
buffer succeeds and lands at positions 1 and 2. -/
theorem mcast_send_amended_witness :
    (({ outbound_data_ := ['a', 'b', 'c', 'd'], next_send_valid_index_ := 1,
        inbound_data_ := [], next_rcv_valid_index_ := 0 } : McastSocket).next_send_valid_index_ +
      (['x', 'y'] : List Char).length ≤
      ({ outbound_data_ := ['a', 'b', 'c', 'd'], next_send_valid_index_ := 1,
         inbound_data_ := [], next_rcv_valid_index_ := 0 } : McastSocket).outbound_data_.length) ∧
    ((McastSocket.send
        { outbound_data_ := ['a', 'b', 'c', 'd'], next_send_valid_index_ := 1,
          inbound_data_ := [], next_rcv_valid_index_ := 0 } ['x', 'y'] = none ↔
      McastBufferSize ≤ 1 + (['x', 'y'] : List Char).length) ∧
    (∀ s2, McastSocket.send
        { outbound_data_ := ['a', 'b', 'c', 'd'], next_send_valid_index_ := 1,
          inbound_data_ := [], next_rcv_valid_index_ := 0 } ['x', 'y'] = some s2 →
      s2.next_send_valid_index_ = 1 + (['x', 'y'] : List Char).length ∧
      s2.outbound_data_.take 1 = (['a', 'b', 'c', 'd'] : List Char).take 1 ∧
      (s2.outbound_data_.drop 1).take (['x', 'y'] : List Char).length = ['x', 'y'] ∧
      s2.outbound_data_.length = (['a', 'b', 'c', 'd'] : List Char).length)) :=
  ⟨by decide, mcast_send_amended
    { outbound_data_ := ['a', 'b', 'c', 'd'], next_send_valid_index_ := 1,
      inbound_data_ := [], next_rcv_valid_index_ := 0 } ['x', 'y'] (by decide)⟩

/-- C8: after every `sendAndRecv()` call the outbound high-water mark equals
zero — the reset sits outside the pending-bytes `if` and after the single
non-blocking send attempt, so it happens regardless of how many bytes were
pending or transmitted. -/
theorem mcast_sendAndRecv_resets_outbound (s : McastSocket) (rcvd : List Char) :
    (McastSocket.sendAndRecv s rcvd).1.next_send_valid_index_ = 0 := rfl

/-! ### Claim theorems: reactor -/

theorem foldl_recv_step {σ : Type} :
    ∀ (l : List (σ × Bool)) (acc : List σ × Bool),
      l.foldl (fun (acc : List σ × Bool) sv => (acc.1 ++ [sv.1], acc.2 || sv.2)) acc =
        (acc.1 ++ l.map Prod.fst, acc.2 || l.any (fun sv => sv.2)) := by
  intro l
  induction l with
  | nil => intro acc; simp
  | cons sv rest ih =>
    intro acc
    simp only [List.foldl_cons, ih, List.map_cons, List.any_cons]
    simp [List.append_assoc, Bool.or_assoc]

/-- C6: in each reactor tick, `sendAndRecv` is invoked on every socket of the
read-interest list in order, and the batch-finished callback fires exactly once
when at least one of them received bytes and zero times when none did — never
once per socket. -/
theorem tcp_server_batch_callback {σ : Type} (rs : List (σ × Bool)) (ss : List σ) :
    (tcpServerSendAndRecv rs ss).recvInvoked = rs.map Prod.fst ∧
    (tcpServerSendAndRecv rs ss).finishedCallbackCount =
      (if rs.any (fun sv => sv.2) then 1 else 0) ∧
    (tcpServerSendAndRecv rs ss).sendInvoked = ss := by
  unfold tcpServerSendAndRecv
  rw [foldl_recv_step]
  cases hany : rs.any (fun sv => sv.2) <;> simp [hany]

/-- C2: the claim requires `listen(iface, port)` to bind the descriptor to the
resolved address and port and then listen before registering read interest; in
the code the listening branch of `createSocket` prepares the `sockaddr_in` but
never calls `bind` — it calls `listen` twice on the unbound descriptor and the
reactor then registers it.  Evaluated at the failing input iface "lo0", port
12345. -/
theorem tcp_server_listen_no_bind :
    NetAction.bindCall ∉ tcpServerListenActions ("lo0") 12345 ∧
    (tcpServerListenActions ("lo0") 12345).count NetAction.listenSysCall = 2 ∧
    tcpServerListenActions ("lo0") 12345 =
      [NetAction.kqueueCall, NetAction.getaddrinfoCall, NetAction.socketCall,
       NetAction.setNonBlockingCall, NetAction.disableNagleCall, NetAction.setReuseAddrCall,
       NetAction.listenSysCall, NetAction.listenSysCall, NetAction.keventRegisterRead] := by
  decide

/-! ### Logger lemmas -/

theorem flushAll_cons (e : LogElement) (es : List LogElement) :
    flushAll (e :: es) =
      (flushElement e).bind (fun t => (flushAll es).map (fun ts => t ++ ts)) := by
  unfold flushAll
  rw [List.mapM_cons]
  cases hfe : flushElement e with
  | none => rfl
  | some t =>
    cases hms : es.mapM flushElement with
    | none => rfl
    | some l => rfl

theorem flushAll_pushArg (a : LogArg) (es : List LogElement) :
    flushAll (pushArg a ++ es) = (flushAll es).map (fun ts => argText a ++ ts) := by
  cases a
  case aStr sv =>
    induction sv with
    | nil =>
      simp only [pushArg, pushValueCString, List.map_nil, List.nil_append, argText]
      cases flushAll es <;> simp
    | cons c cs ih =>
      simp only [pushArg, pushValueCString, List.map_cons, List.cons_append, argText] at ih ⊢
      rw [flushAll_cons]
      have hfe : flushElement (pushValueChar c) = some [c] := rfl
      rw [hfe, ih]
      cases flushAll es <;> simp
  all_goals
    simp only [pushArg, List.singleton_append]
    rw [flushAll_cons]
    cases hfs : flushAll es <;>
      simp [flushElement, argText, pushValueChar, pushValueInt, pushValueLong,
        pushValueLongLong, pushValueUnsigned, pushValueUnsignedLong,
        pushValueUnsignedLongLong, pushValueFloat, pushValueDouble,
        readC, readI, readL, readLL, readU, readUL, readULL, readF, readD, hfs]

theorem bind_flushAll_map_cons (c : Char) (o : Option (List LogElement)) :
    (o.map (fun es => pushValueChar c :: es)).bind flushAll =
      (o.bind flushAll).map (fun t => c :: t) := by
  cases o with
  | none => rfl
  | some es =>
    show flushAll (pushValueChar c :: es) = (flushAll es).map (fun t => c :: t)
    rw [flushAll_cons]
    have hfe : flushElement (pushValueChar c) = some [c] := rfl
    rw [hfe]
    cases flushAll es <;> simp

theorem bind_flushAll_map_pushArg (a : LogArg) (o : Option (List LogElement)) :
    (o.map (fun es => pushArg a ++ es)).bind flushAll =
      (o.bind flushAll).map (fun t => argText a ++ t) := by
  cases o with
  | none => rfl
  | some es =>
    show flushAll (pushArg a ++ es) = (flushAll es).map (fun t => argText a ++ t)
    exact flushAll_pushArg a es

theorem logNoArgs_renders :
    ∀ (n : Nat) (sfmt : List Char), sfmt.length ≤ n →
      (logNoArgs sfmt).bind flushAll = specLogText sfmt [] := by
  intro n
  induction n with
  | zero =>
    intro sfmt hlen
    have hs : sfmt = [] := List.length_eq_zero.mp (Nat.le_zero.mp hlen)
    subst hs
    rfl
  | succ n ih =>
    intro sfmt hlen
    match sfmt with
    | [] => rfl
    | ch :: rest =>
      by_cases hch : ch = '%'
      · subst hch
        match rest with
        | [] => simp [logNoArgs, specLogText]
        | r :: rest2 =>
          by_cases hr : r = '%'
          · subst hr
            have hrec := ih rest2 (by simp at hlen ⊢; omega)
            have h1 : logNoArgs ('%' :: '%' :: rest2) =
                (logNoArgs rest2).map (fun es => pushValueChar '%' :: es) := by
              simp [logNoArgs]
            have h2 : specLogText ('%' :: '%' :: rest2) [] =
                (specLogText rest2 []).map (fun t => '%' :: t) := by
              simp [specLogText]
            rw [h1, h2, bind_flushAll_map_cons, hrec]
          · rw [logNoArgs.eq_def, specLogText.eq_def]; simp [hr]
      · have hrec := ih rest (by simp at hlen ⊢; omega)
        have h1 : logNoArgs (ch :: rest) =
            (logNoArgs rest).map (fun es => pushValueChar ch :: es) := by
          rw [logNoArgs.eq_def]; simp [hch]
        have h2 : specLogText (ch :: rest) [] =
            (specLogText rest []).map (fun t => ch :: t) := by
          rw [specLogText.eq_def]; simp [hch]
        rw [h1, h2, bind_flushAll_map_cons, hrec]

theorem logFmt_renders_aux :
    ∀ (n : Nat) (sfmt : List Char) (args : List LogArg), sfmt.length ≤ n →
      (logFmt sfmt args).bind flushAll = specLogText sfmt args := by
  intro n
  induction n with
  | zero =>
    intro sfmt args hlen
    have hs : sfmt = [] := List.length_eq_zero.mp (Nat.le_zero.mp hlen)
    subst hs
    cases args with
    | nil => rfl
    | cons a as => rfl
  | succ n ih =>
    intro sfmt args hlen
    cases args with
    | nil =>
      have h1 : logFmt sfmt [] = logNoArgs sfmt := by cases sfmt <;> simp [logFmt]
      rw [h1]
      exact logNoArgs_renders (n + 1) sfmt hlen
    | cons a as =>
      cases sfmt with
      | nil => rfl
      | cons ch rest =>
        by_cases hch : ch = '%'
        · subst hch
          cases rest with
          | nil =>
            cases as with
            | nil =>
              show (logFmt ['%'] [a]).bind flushAll = specLogText ['%'] [a]
              have h1 : logFmt ['%'] [a] = some (pushArg a ++ []) := by simp [logFmt]
              have h2 : specLogText ['%'] [a] = some (argText a ++ []) := by
                simp [specLogText]
              rw [h1, h2]
              show flushAll (pushArg a ++ []) = some (argText a ++ [])
              rw [flushAll_pushArg]
              rfl
            | cons b bs =>
              have h1 : logFmt ['%'] (a :: b :: bs) = none := by simp [logFmt]
              have h2 : specLogText ['%'] (a :: b :: bs) = none := by simp [specLogText]
              rw [h1, h2]
              rfl
          | cons r rest2 =>
            by_cases hr : r = '%'
            · subst hr
              have h1 : logFmt ('%' :: '%' :: rest2) (a :: as) =
                  (logFmt rest2 (a :: as)).map (fun es => pushValueChar '%' :: es) := by
                simp [logFmt]
              have h2 : specLogText ('%' :: '%' :: rest2) (a :: as) =
                  (specLogText rest2 (a :: as)).map (fun t => '%' :: t) := by
                simp [specLogText]
              rw [h1, h2, bind_flushAll_map_cons,
                ih rest2 (a :: as) (by simp at hlen ⊢; omega)]
            · have h1 : logFmt ('%' :: r :: rest2) (a :: as) =
                  (logFmt (r :: rest2) as).map (fun es => pushArg a ++ es) := by
                rw [logFmt.eq_def]; simp [hr]
              have h2 : specLogText ('%' :: r :: rest2) (a :: as) =
                  (specLogText (r :: rest2) as).map (fun t => argText a ++ t) := by
                rw [specLogText.eq_def]; simp [hr]
              rw [h1, h2, bind_flushAll_map_pushArg,
                ih (r :: rest2) as (by simp at hlen ⊢; omega)]
        · have h1 : logFmt (ch :: rest) (a :: as) =
              (logFmt rest (a :: as)).map (fun es => pushValueChar ch :: es) := by
            rw [logFmt.eq_def]; simp [hch]
          have h2 : specLogText (ch :: rest) (a :: as) =
              (specLogText rest (a :: as)).map (fun t => ch :: t) := by
            rw [specLogText.eq_def]; simp [hch]
          rw [h1, h2, bind_flushAll_map_cons,
            ih rest (a :: as) (by simp at hlen ⊢; omega)]

theorem logNoArgs_none_iff :
    ∀ (n : Nat) (sfmt : List Char), sfmt.length ≤ n →
      (logNoArgs sfmt = none ↔ substCount sfmt ≠ 0) := by
  intro n
  induction n with
  | zero =>
    intro sfmt hlen
    have hs : sfmt = [] := List.length_eq_zero.mp (Nat.le_zero.mp hlen)
    subst hs
    simp [logNoArgs, substCount]
  | succ n ih =>
    intro sfmt hlen
    match sfmt with
    | [] => simp [logNoArgs, substCount]
    | ch :: rest =>
      by_cases hch : ch = '%'
      · subst hch
        match rest with
        | [] => simp [logNoArgs, substCount]
        | r :: rest2 =>
          by_cases hr : r = '%'
          · subst hr
            have hrec := ih rest2 (by simp at hlen ⊢; omega)
            have h1 : logNoArgs ('%' :: '%' :: rest2) =
                (logNoArgs rest2).map (fun es => pushValueChar '%' :: es) := by
              simp [logNoArgs]
            have h3 : substCount ('%' :: '%' :: rest2) = substCount rest2 := by
              simp [substCount]
            rw [h1, h3, Option.map_eq_none']
            exact hrec
          · rw [logNoArgs.eq_def, substCount.eq_def]; simp [hr]
      · have hrec := ih rest (by simp at hlen ⊢; omega)
        have h1 : logNoArgs (ch :: rest) =
            (logNoArgs rest).map (fun es => pushValueChar ch :: es) := by
          rw [logNoArgs.eq_def]; simp [hch]
        have h3 : substCount (ch :: rest) = substCount rest := by
          rw [substCount.eq_def]; simp [hch]
        rw [h1, h3, Option.map_eq_none']
        exact hrec

theorem logFmt_none_iff_aux :
    ∀ (n : Nat) (sfmt : List Char) (args : List LogArg), sfmt.length ≤ n →
      (logFmt sfmt args = none ↔ substCount sfmt ≠ args.length) := by
  intro n
  induction n with
  | zero =>
    intro sfmt args hlen
    have hs : sfmt = [] := List.length_eq_zero.mp (Nat.le_zero.mp hlen)
    subst hs
    cases args with
    | nil => simp [logFmt, logNoArgs, substCount]
    | cons a as => simp [logFmt, substCount]
  | succ n ih =>
    intro sfmt args hlen
    cases args with
    | nil =>
      have h1 : logFmt sfmt [] = logNoArgs sfmt := by cases sfmt <;> simp [logFmt]
      rw [h1, List.length_nil]
      exact logNoArgs_none_iff (n + 1) sfmt hlen
    | cons a as =>
      cases sfmt with
      | nil => simp [logFmt, substCount]
      | cons ch rest =>
        by_cases hch : ch = '%'
        · subst hch
          cases rest with
          | nil =>
            cases as with
            | nil => simp [logFmt, substCount]
            | cons b bs => simp [logFmt, substCount]
          | cons r rest2 =>
            by_cases hr : r = '%'
            · subst hr
              have hrec := ih rest2 (a :: as)
                (by simp at hlen ⊢; omega)
              have h1 : logFmt ('%' :: '%' :: rest2) (a :: as) =
                  (logFmt rest2 (a :: as)).map (fun es => pushValueChar '%' :: es) := by
                simp [logFmt]
              have h3 : substCount ('%' :: '%' :: rest2) = substCount rest2 := by
                simp [substCount]
              rw [h1, h3, Option.map_eq_none']
              exact hrec
            · have hrec := ih (r :: rest2) as
                (by simp at hlen ⊢; omega)
              have h1 : logFmt ('%' :: r :: rest2) (a :: as) =
                  (logFmt (r :: rest2) as).map (fun es => pushArg a ++ es) := by
                rw [logFmt.eq_def]; simp [hr]
              have h3 : substCount ('%' :: r :: rest2) = 1 + substCount (r :: rest2) := by
                rw [substCount.eq_def]; simp [hr]
              rw [h1, h3, Option.map_eq_none', hrec, List.length_cons]
              omega
        · have hrec := ih rest (a :: as)
            (by simp at hlen ⊢; omega)
          have h1 : logFmt (ch :: rest) (a :: as) =
              (logFmt rest (a :: as)).map (fun es => pushValueChar ch :: es) := by
            rw [logFmt.eq_def]; simp [hch]
          have h3 : substCount (ch :: rest) = substCount rest := by
            rw [substCount.eq_def]; simp [hch]
          rw [h1, h3, Option.map_eq_none']
          exact hrec

/-! ### Claim theorems: logger -/

/-- C4: `log(format, args...)` scans the format left to right, replacing each
`%`, in order, by the textual form of the next argument and emitting `%%` as a
literal `%` (the general scan refines the spec-level substitution function);
in particular `log("a=% b=%", 1, "x")` produces `a=1 b=x` and
`log("100%% done")` produces `100% done`. -/
theorem log_percent_substitution :
    (∀ (sfmt : List Char) (args : List LogArg),
      (logFmt sfmt args).bind flushAll = specLogText sfmt args) ∧
    (logFmt ("a=% b=%".toList) [LogArg.aInt 1, LogArg.aStr ("x".toList)]).bind flushAll =
      some ("a=1 b=x".toList) ∧
    (logFmt ("100%% done".toList) []).bind flushAll = some ("100% done".toList) :=
  ⟨fun sfmt args => logFmt_renders_aux sfmt.length sfmt args (le_refl _),
   by decide, by decide⟩

/-- C5: a `log` call aborts exactly when the format string and the argument
list mismatch: whenever the number of substituting `%` placeholders differs
from the number of arguments — format exhausted with unconsumed arguments, or a
non-escaped `%` with no corresponding argument — the call is `FATAL`, in either
direction. -/
theorem log_mismatch_aborts (sfmt : List Char) (args : List LogArg) :
    logFmt sfmt args = none ↔ substCount sfmt ≠ args.length :=
  logFmt_none_iff_aux sfmt.length sfmt args (le_refl _)

/-- C10: every `pushValue` overload enqueues a `LogElement` whose kind tag
matches the union member it writes, and the flush switch reads exactly the
member selected by the tag, so every pushed element renders from the member it
was written through and a value pushed as one kind is never reinterpreted as
another. -/
theorem log_tag_union_consistent :
    (∀ v : Char, (pushValueChar v).type_ = unionTag (pushValueChar v).u_ ∧
      flushElement (pushValueChar v) = some [v]) ∧
    (∀ v : Int, (pushValueInt v).type_ = unionTag (pushValueInt v).u_ ∧
      flushElement (pushValueInt v) = some (toString v).toList) ∧
    (∀ v : Int, (pushValueLong v).type_ = unionTag (pushValueLong v).u_ ∧
      flushElement (pushValueLong v) = some (toString v).toList) ∧
    (∀ v : Int, (pushValueLongLong v).type_ = unionTag (pushValueLongLong v).u_ ∧
      flushElement (pushValueLongLong v) = some (toString v).toList) ∧
    (∀ v : Nat, (pushValueUnsigned v).type_ = unionTag (pushValueUnsigned v).u_ ∧
      flushElement (pushValueUnsigned v) = some (toString v).toList) ∧
    (∀ v : Nat, (pushValueUnsignedLong v).type_ = unionTag (pushValueUnsignedLong v).u_ ∧
      flushElement (pushValueUnsignedLong v) = some (toString v).toList) ∧
    (∀ v : Nat, (pushValueUnsignedLongLong v).type_ =
        unionTag (pushValueUnsignedLongLong v).u_ ∧
      flushElement (pushValueUnsignedLongLong v) = some (toString v).toList) ∧
    (∀ v : Rat, (pushValueFloat v).type_ = unionTag (pushValueFloat v).u_ ∧
      flushElement (pushValueFloat v) = some (floatText v)) ∧
    (∀ v : Rat, (pushValueDouble v).type_ = unionTag (pushValueDouble v).u_ ∧
      flushElement (pushValueDouble v) = some (floatText v)) ∧
    (∀ e : LogElement, e.type_ = unionTag e.u_ → (flushElement e).isSome) :=
  ⟨fun _ => ⟨rfl, rfl⟩, fun _ => ⟨rfl, rfl⟩, fun _ => ⟨rfl, rfl⟩, fun _ => ⟨rfl, rfl⟩,
   fun _ => ⟨rfl, rfl⟩, fun _ => ⟨rfl, rfl⟩, fun _ => ⟨rfl, rfl⟩, fun _ => ⟨rfl, rfl⟩,
   fun _ => ⟨rfl, rfl⟩,
   fun e he => by
    cases hu : e.u_ <;> rw [flushElement, he, hu] <;> simp [unionTag, readC, readI,
      readL, readLL, readU, readUL, readULL, readF, readD]⟩

/-- Witness for C10 at a concrete element: an `int` pushed as INTEGER flushes
through the matching union member. -/
theorem log_tag_union_consistent_witness :
    (pushValueInt 5).type_ = unionTag (pushValueInt 5).u_ ∧
    (flushElement (pushValueInt 5)).isSome :=
  ⟨rfl, log_tag_union_consistent.2.2.2.2.2.2.2.2.2 (pushValueInt 5) rfl⟩

end Sockets
